import Mathlib

/-!
Verification of the madara sync/storage core against its specification.

The development shallowly embeds the contract-history storage engine
(`crates/client/db/src/contract_db.rs`), the L2 sync pipeline tasks
(`crates/client/sync/src/l2.rs`) and the sync entry point
(`crates/client/sync/src/lib.rs`).

Machine integers (u32 block numbers, u64 block numbers, 32-byte field
elements) are modelled as `Nat` with explicit bounds.  RocksDB columns are
modelled as association lists of (byte-string key, value) pairs where `put`
overwrites; the reverse prefix-bounded iterator used by
`resolve_history_kv` is modelled as "greatest key below the start key that
shares the start key's extracted prefix", which is the documented contract of
a RocksDB reverse iterator under `prefix_same_as_start` with a fixed-width
prefix extractor.
-/

namespace MadaraSpec

/-! ## Byte strings, big-endian encoding, lexicographic order

On-disk keys in `contract_db.rs` are byte strings: a fixed-width entity key
(32 bytes from `Felt::to_bytes_be`, or 64 bytes from
`make_storage_key_prefix`) optionally followed by the 4-byte big-endian
encoding of a `u32` block number (`block_n.to_be_bytes()`).
-/

/-- A byte string; each element is intended to be `< 256`. -/
abbrev Bytes := List Nat

/-- Strict lexicographic order on byte strings (RocksDB's default
bytewise comparator: shorter strings sort before their extensions). -/
def bytesLt : Bytes → Bytes → Bool
  | [], [] => false
  | [], _ :: _ => true
  | _ :: _, [] => false
  | a :: as, b :: bs => if a < b then true else if a = b then bytesLt as bs else false

/-- Non-strict lexicographic order on byte strings. -/
def bytesLe (a b : Bytes) : Bool := a == b || bytesLt a b

/-- Big-endian encoding of `n` on `w` bytes (the semantics of
`to_be_bytes` / `to_bytes_be` in the source, truncated to `w` bytes). -/
def beBytes : Nat → Nat → Bytes
  | 0, _ => []
  | w + 1, n => n / 256 ^ w :: beBytes w (n % 256 ^ w)

theorem beBytes_length (w n : Nat) : (beBytes w n).length = w := by
  induction w generalizing n with
  | zero => rfl
  | succ w ih => simp [beBytes, ih]

theorem bytesLt_irrefl (a : Bytes) : bytesLt a a = false := by
  induction a with
  | nil => rfl
  | cons x xs ih => simp [bytesLt, ih]

theorem bytesLt_trans : ∀ a b c : Bytes,
    bytesLt a b = true → bytesLt b c = true → bytesLt a c = true := by
  intro a
  induction a with
  | nil =>
    intro b c hab hbc
    cases b with
    | nil => simp [bytesLt] at hab
    | cons y ys =>
      cases c with
      | nil => simp [bytesLt] at hbc
      | cons z zs => simp [bytesLt]
  | cons x xs ih =>
    intro b c hab hbc
    cases b with
    | nil => simp [bytesLt] at hab
    | cons y ys =>
      cases c with
      | nil => simp [bytesLt] at hbc
      | cons z zs =>
        simp only [bytesLt] at hab hbc ⊢
        split_ifs at hab hbc ⊢ with h1 h2 h3 h4 h5 h6
        all_goals try rfl
        all_goals try omega
        · exact ih ys zs hab hbc

theorem bytesLt_total (a b : Bytes) :
    bytesLt a b = true ∨ a = b ∨ bytesLt b a = true := by
  induction a generalizing b with
  | nil =>
    cases b with
    | nil => exact Or.inr (Or.inl rfl)
    | cons y ys => exact Or.inl (by simp [bytesLt])
  | cons x xs ih =>
    cases b with
    | nil => exact Or.inr (Or.inr (by simp [bytesLt]))
    | cons y ys =>
      rcases Nat.lt_trichotomy x y with h | h | h
      · exact Or.inl (by simp [bytesLt, h])
      · subst h
        rcases ih ys with h' | h' | h'
        · exact Or.inl (by simp [bytesLt, h'])
        · exact Or.inr (Or.inl (by rw [h']))
        · exact Or.inr (Or.inr (by simp [bytesLt, h']))
      · exact Or.inr (Or.inr (by simp [bytesLt, h]))

theorem bytesLe_refl (a : Bytes) : bytesLe a a = true := by
  simp [bytesLe]

theorem bytesLe_of_not_lt {a b : Bytes} (h : ¬ bytesLt a b = true) :
    bytesLe b a = true := by
  rcases bytesLt_total a b with h' | h' | h'
  · exact absurd h' h
  · subst h'; exact bytesLe_refl a
  · simp [bytesLe, h']

theorem bytesLe_trans {a b c : Bytes}
    (hab : bytesLe a b = true) (hbc : bytesLe b c = true) : bytesLe a c = true := by
  simp only [bytesLe, Bool.or_eq_true, beq_iff_eq] at hab hbc ⊢
  rcases hab with h1 | h1 <;> rcases hbc with h2 | h2
  · exact Or.inl (h1.trans h2)
  · subst h1; exact Or.inr h2
  · subst h2; exact Or.inr h1
  · exact Or.inr (bytesLt_trans _ _ _ h1 h2)

theorem bytesLt_append_left (p : Bytes) (a b : Bytes) :
    bytesLt (p ++ a) (p ++ b) = bytesLt a b := by
  induction p with
  | nil => rfl
  | cons x xs ih => simp [bytesLt, ih]

/-- Positional comparison of a Euclidean decomposition: with both remainders
below the divisor, comparing `K * q + r` values is lexicographic in `(q, r)`. -/
theorem divmod_lt_iff (K q1 r1 q2 r2 : Nat) (h1 : r1 < K) (h2 : r2 < K) :
    K * q1 + r1 < K * q2 + r2 ↔ q1 < q2 ∨ (q1 = q2 ∧ r1 < r2) := by
  constructor
  · intro h
    rcases Nat.lt_trichotomy q1 q2 with h' | h' | h'
    · exact Or.inl h'
    · subst h'; exact Or.inr ⟨rfl, by omega⟩
    · exfalso
      have : K * (q2 + 1) ≤ K * q1 := Nat.mul_le_mul_left K h'
      have : K * q2 + K ≤ K * q1 := by rw [Nat.mul_succ] at this; omega
      omega
  · rintro (h | ⟨rfl, h⟩)
    · have : K * (q1 + 1) ≤ K * q2 := Nat.mul_le_mul_left K h
      have : K * q1 + K ≤ K * q2 := by rw [Nat.mul_succ] at this; omega
      omega
    · omega

theorem beBytes_lt_iff (w : Nat) : ∀ n m : Nat, n < 256 ^ w → m < 256 ^ w →
    (bytesLt (beBytes w n) (beBytes w m) = true ↔ n < m) := by
  induction w with
  | zero =>
    intro n m hn hm
    simp [beBytes, bytesLt]
    omega
  | succ w ih =>
    intro n m hn hm
    have hK : 0 < 256 ^ w := Nat.pos_pow_of_pos w (by norm_num)
    have hnm : n % 256 ^ w < 256 ^ w := Nat.mod_lt _ hK
    have hmm : m % 256 ^ w < 256 ^ w := Nat.mod_lt _ hK
    have hdn := Nat.div_add_mod n (256 ^ w)
    have hdm := Nat.div_add_mod m (256 ^ w)
    have key := divmod_lt_iff (256 ^ w) (n / 256 ^ w) (n % 256 ^ w)
      (m / 256 ^ w) (m % 256 ^ w) hnm hmm
    rw [hdn, hdm] at key
    simp only [beBytes, bytesLt]
    split_ifs with h1 h2
    · simp only [true_iff]
      exact key.mpr (Or.inl h1)
    · rw [ih _ _ hnm hmm, key]
      constructor
      · intro h; exact Or.inr ⟨h2, h⟩
      · rintro (h | ⟨_, h⟩)
        · omega
        · exact h
    · simp only [false_iff, not_lt]
      have hmn : m < n := by
        have key2 := divmod_lt_iff (256 ^ w) (m / 256 ^ w) (m % 256 ^ w)
          (n / 256 ^ w) (n % 256 ^ w) hmm hnm
        rw [hdm, hdn] at key2
        exact key2.mpr (Or.inl (by omega))
      omega

theorem beBytes_inj {w n m : Nat} (hn : n < 256 ^ w) (hm : m < 256 ^ w)
    (h : beBytes w n = beBytes w m) : n = m := by
  rcases Nat.lt_trichotomy n m with h' | h' | h'
  · have := (beBytes_lt_iff w n m hn hm).mpr h'
    rw [h, bytesLt_irrefl] at this
    exact absurd this (by simp)
  · exact h'
  · have := (beBytes_lt_iff w m n hm hn).mpr h'
    rw [h, bytesLt_irrefl] at this
    exact absurd this (by simp)

theorem bytesLe_append_beBytes_iff (p : Bytes) (w n m : Nat)
    (hn : n < 256 ^ w) (hm : m < 256 ^ w) :
    (bytesLe (p ++ beBytes w n) (p ++ beBytes w m) = true ↔ n ≤ m) := by
  simp only [bytesLe, Bool.or_eq_true, beq_iff_eq]
  rw [bytesLt_append_left, beBytes_lt_iff w n m hn hm]
  constructor
  · rintro (h | h)
    · exact Nat.le_of_eq (beBytes_inj hn hm (List.append_cancel_left h))
    · exact Nat.le_of_lt h
  · intro h
    rcases Nat.lt_or_ge n m with h' | h'
    · exact Or.inr h'
    · have : n = m := Nat.le_antisymm h h'
      exact Or.inl (by rw [this])

theorem take_length_append (p s : Bytes) : (p ++ s).take p.length = p := by
  simp [List.take_append]

/-! ## RocksDB column model

A column family is an association list from byte-string key to stored value.
`colPut` models `WriteBatch::put_cf` (overwrite-by-key), `colGet` models
`get_pinned_cf`, and `revIterNext` models the first `next()` of
`iterator_cf_opt` in `IteratorMode::From(start, Direction::Reverse)` with
`prefix_same_as_start` under a fixed-width prefix extractor: the entry with
the greatest key `≤ start` among keys sharing the first `w` bytes of
`start`.  Stored values are modelled post-`bincode` roundtrip, i.e. as the
values themselves. -/

/-- A RocksDB column family. -/
abbrev Column := List (Bytes × Nat)

/-- Remove every entry whose key is `k`. -/
def colErase (k : Bytes) (c : Column) : Column :=
  c.filter (fun e => !(e.1 == k))

/-- Point write: overwrite the value stored at key `k`. -/
def colPut (c : Column) (k : Bytes) (v : Nat) : Column :=
  (k, v) :: colErase k c

/-- Point read at key `k`. -/
def colGet (c : Column) (k : Bytes) : Option Nat :=
  (c.find? (fun e => e.1 == k)).map Prod.snd

/-- Does key `k` fall in the iteration window of a reverse scan started at
`start` with a `w`-byte prefix extractor and `prefix_same_as_start`? -/
def scanMatch (w : Nat) (start k : Bytes) : Bool :=
  k.take w == start.take w && bytesLe k start

/-- First entry yielded by a reverse prefix-bounded iterator positioned at
`start`: the entry with the greatest key in the scan window (first
occurrence wins among duplicates, matching `colGet`). -/
def revIterNext (c : Column) (w : Nat) (start : Bytes) : Option (Bytes × Nat) :=
  match c with
  | [] => none
  | e :: rest =>
    let r := revIterNext rest w start
    if scanMatch w start e.1 then
      match r with
      | none => some e
      | some a => if bytesLt e.1 a.1 then some a else some e
    else r

theorem colGet_colPut_self (c : Column) (k : Bytes) (v : Nat) :
    colGet (colPut c k v) k = some v := by
  simp [colGet, colPut, List.find?]

theorem colGet_eq_some_mem {c : Column} {k : Bytes} {v : Nat}
    (h : colGet c k = some v) : (k, v) ∈ c := by
  simp only [colGet, Option.map_eq_some'] at h
  obtain ⟨e, he, hv⟩ := h
  have hmem := List.mem_of_find?_eq_some he
  have hkey := List.find?_some he
  simp only [beq_iff_eq] at hkey
  have : e = (k, v) := by
    cases e; simp_all
  rw [← this]; exact hmem

theorem colGet_isSome_ex {c : Column} {k : Bytes} (h : (colGet c k).isSome) :
    ∃ v, (k, v) ∈ c := by
  rcases Option.isSome_iff_exists.mp h with ⟨v, hv⟩
  exact ⟨v, colGet_eq_some_mem hv⟩

theorem colGet_filter_none (c : Column) (P : Bytes → Bool) (k : Bytes)
    (h : P k = false) : colGet (c.filter (fun e => P e.1)) k = none := by
  simp only [colGet, Option.map_eq_none']
  rw [List.find?_eq_none]
  intro e he
  have hP := List.of_mem_filter he
  simp only [beq_iff_eq]
  intro hk
  rw [hk, h] at hP
  exact absurd hP (by simp)

/-! ## The contract DB (`crates/client/db/src/contract_db.rs`)

`DeoxysBackend` is modelled by its six contract-history column families
(class hashes, nonces, storage, each with a confirmed and a pending
variant) plus the latest committed block number
(`get_latest_block_n`).

Key encodings, following the source:
  - confirmed keys are `entity_bytes ++ be_bytes_4 block_n` where
    `block_n : u32` (`contract_db_store_block`);
  - pending keys are `entity_bytes` alone (`contract_db_store_pending`);
  - `entity_bytes` is `Felt::to_bytes_be` (32 bytes) for class hashes and
    nonces, and the 64-byte address‖slot concatenation built by
    `make_storage_key_prefix` for storage slots.

The pending-column point read in `resolve_history_kv` keys on
`bincode::serialize(k)`.  Under bincode v1 (the `bincode::serialize` API)
every byte string emitted through serde's `serialize_bytes` is prefixed
with its length as a little-endian `u64`, and `starknet_core::types::Felt`
serializes for non-human-readable formats via
`serializer.serialize_bytes(&self.to_bytes_be())`.  The read key for a
`Felt` is therefore the 8-byte length prefix `32u64` followed by the 32
big-endian bytes (40 bytes in total), and for a `(Felt, Felt)` tuple the
two fields in sequence, each with its own prefix (80 bytes) — which never
equals the raw 32/64-byte keys `contract_db_store_pending` writes.  This
asymmetry is embedded faithfully below and is what the C1 bug theorem
exhibits. -/

/-- The Stark field modulus: every `Felt` in the source is `< feltP`. -/
def feltP : Nat := 2 ^ 251 + 17 * 2 ^ 192 + 1

/-- Encoding `Felt::to_bytes_be`: 32-byte big-endian form of a field element. -/
def feltBytes (x : Nat) : Bytes := beBytes 32 x

/-- The 64-byte composite key for a storage slot
(source: `make_storage_key_prefix`). -/
def make_storage_key (contract_address storage_key : Nat) : Bytes :=
  feltBytes contract_address ++ feltBytes storage_key

/-- Little-endian encoding of `n` on `w` bytes (bincode v1 writes its
length prefixes as little-endian `u64`). -/
def leBytes : Nat → Nat → Bytes
  | 0, _ => []
  | w + 1, n => n % 256 :: leBytes w (n / 256)

/-- Encoding `bincode::serialize` applies to a byte string via serde's
`serialize_bytes`: a `u64` little-endian length prefix followed by the
bytes. -/
def bincodeBytes (b : Bytes) : Bytes := leBytes 8 b.length ++ b

/-- Encoding `bincode::serialize(&felt)`: `serialize_bytes(to_bytes_be)`,
i.e. 40 bytes. -/
def bincodeFelt (x : Nat) : Bytes := bincodeBytes (feltBytes x)

/-- Encoding `bincode::serialize(&(felt, felt))`: both tuple fields in
sequence, each length-prefixed, i.e. 80 bytes. -/
def bincodeFeltPair (contract_address storage_key : Nat) : Bytes :=
  bincodeBytes (feltBytes contract_address) ++ bincodeBytes (feltBytes storage_key)

/-- Source: `const LAST_KEY: &[u8] = &[0xFF; 64];`. -/
def LAST_KEY : Bytes := List.replicate 64 255

/-- Width of the prefix extractor configured on the storage column. -/
def CONTRACT_STORAGE_KEY_WIDTH : Nat := 64

/-- Width of the prefix extractor configured on the class-hash column. -/
def CONTRACT_CLASS_HASH_KEY_WIDTH : Nat := 32

/-- Width of the prefix extractor configured on the nonce column. -/
def CONTRACT_NONCES_KEY_WIDTH : Nat := 32

/-- Storage-layer errors (`DeoxysStorageError`); only the variant relevant
to the modelled code paths is carried, the rest of the enum concerns I/O
and serialization failures that the pure model cannot produce. -/
inductive DeoxysStorageError where
  | InvalidBlockNumber
  deriving DecidableEq, Repr

/-- A resolved database block id (`DbBlockId`): the pending block or a
concrete confirmed block number. -/
inductive DbBlockId where
  | Pending
  | BlockN (n : Nat)
  deriving DecidableEq, Repr

/-- The backend state visible to `contract_db.rs`: the six contract column
families and the latest committed block number. -/
structure DeoxysBackend where
  contractToClassHashes : Column
  contractToNonces : Column
  contractStorage : Column
  pendingContractToClassHashes : Column
  pendingContractToNonces : Column
  pendingContractStorage : Column
  latestBlockN : Option Nat
  deriving DecidableEq, Repr

/-- The non-pending tail of `resolve_history_kv`: check the block number
fits a `u32` (`u32::try_from(block_n)`), build the start key
`bin_pfx ++ block_n.to_be_bytes()` and take the first entry of the reverse
prefix-bounded iterator. -/
def historyLookup (col : Column) (w : Nat) (binPfx : Bytes) (blockN : Nat) :
    Except DeoxysStorageError (Option Nat) :=
  if blockN < 2 ^ 32 then
    match revIterNext col w (binPfx ++ beBytes 4 blockN) with
    | some kv => .ok (some kv.2)
    | none => .ok none
  else .error .InvalidBlockNumber

/-- Source function `DeoxysBackend::resolve_history_kv`.  The resolvable id
argument is modelled post-resolution as `Option DbBlockId`
(`resolve_db_block_id` returning `None` means the id did not resolve to a
concrete block).  For the pending id, the pending column is read at
`bincode::serialize(k)` (`pendingKey` here) and the latest committed block
is the fallback on a miss; for a concrete block the history column is
scanned in reverse from `make_bin_prefix(k) ++ be(block_n)` (`binPfx`
here). -/
def resolve_history_kv (pendingCol nonpendingCol : Column) (latest : Option Nat)
    (w : Nat) (id : Option DbBlockId) (pendingKey binPfx : Bytes) :
    Except DeoxysStorageError (Option Nat) :=
  match id with
  | none => .ok none
  | some .Pending =>
    match colGet pendingCol pendingKey with
    | some v => .ok (some v)
    | none =>
      match latest with
      | none => .ok none
      | some blockN => historyLookup nonpendingCol w binPfx blockN
  | some (.BlockN blockN) => historyLookup nonpendingCol w binPfx blockN

/-- Getter `DeoxysBackend::get_contract_class_hash_at`. -/
def get_contract_class_hash_at (b : DeoxysBackend) (id : Option DbBlockId)
    (contract_addr : Nat) : Except DeoxysStorageError (Option Nat) :=
  resolve_history_kv b.pendingContractToClassHashes b.contractToClassHashes
    b.latestBlockN CONTRACT_CLASS_HASH_KEY_WIDTH id (bincodeFelt contract_addr)
    (feltBytes contract_addr)

/-- Getter `DeoxysBackend::get_contract_nonce_at`. -/
def get_contract_nonce_at (b : DeoxysBackend) (id : Option DbBlockId)
    (contract_addr : Nat) : Except DeoxysStorageError (Option Nat) :=
  resolve_history_kv b.pendingContractToNonces b.contractToNonces
    b.latestBlockN CONTRACT_NONCES_KEY_WIDTH id (bincodeFelt contract_addr)
    (feltBytes contract_addr)

/-- Getter `DeoxysBackend::get_contract_storage_at`. -/
def get_contract_storage_at (b : DeoxysBackend) (id : Option DbBlockId)
    (contract_addr key : Nat) : Except DeoxysStorageError (Option Nat) :=
  resolve_history_kv b.pendingContractStorage b.contractStorage
    b.latestBlockN CONTRACT_STORAGE_KEY_WIDTH id (bincodeFeltPair contract_addr key)
    (make_storage_key contract_addr key)

/-- Write one history column: each update's on-disk key is
`entity_bytes ++ block_number.to_be_bytes()`.  `par_chunks` splits the
update list into chunks of `DB_UPDATES_BATCH_SIZE` written as one batch
each; the model applies the puts in list order (one linearization of the
parallel write-out; chunk contents are written in order within a batch). -/
def storeHistCol (c : Column) (block_number : Nat) (upds : List (Bytes × Nat)) :
    Column :=
  upds.foldl (fun c kv => colPut c (kv.1 ++ beBytes 4 block_number) kv.2) c

/-- Write one pending column: keys carry no block-number suffix. -/
def storePendingCol (c : Column) (upds : List (Bytes × Nat)) : Column :=
  upds.foldl (fun c kv => colPut c kv.1 kv.2) c

/-- Store operation `DeoxysBackend::contract_db_store_block`: reject block numbers that do
not fit a `u32` (`u32::try_from ... InvalidBlockNumber`) before writing
anything, then write the three confirmed columns. -/
def contract_db_store_block (b : DeoxysBackend) (block_number : Nat)
    (contract_class_updates : List (Nat × Nat))
    (contract_nonces_updates : List (Nat × Nat))
    (contract_kv_updates : List ((Nat × Nat) × Nat)) :
    Except DeoxysStorageError DeoxysBackend :=
  if block_number < 2 ^ 32 then
    .ok { b with
      contractToClassHashes := storeHistCol b.contractToClassHashes block_number
        (contract_class_updates.map (fun kv => (feltBytes kv.1, kv.2)))
      contractToNonces := storeHistCol b.contractToNonces block_number
        (contract_nonces_updates.map (fun kv => (feltBytes kv.1, kv.2)))
      contractStorage := storeHistCol b.contractStorage block_number
        (contract_kv_updates.map (fun kv => (make_storage_key kv.1.1 kv.1.2, kv.2))) }
  else .error .InvalidBlockNumber

/-- Store operation `DeoxysBackend::contract_db_store_pending`: write the three pending
columns, keys without block-number suffix. -/
def contract_db_store_pending (b : DeoxysBackend)
    (contract_class_updates : List (Nat × Nat))
    (contract_nonces_updates : List (Nat × Nat))
    (contract_kv_updates : List ((Nat × Nat) × Nat)) : DeoxysBackend :=
  { b with
    pendingContractToClassHashes := storePendingCol b.pendingContractToClassHashes
      (contract_class_updates.map (fun kv => (feltBytes kv.1, kv.2)))
    pendingContractToNonces := storePendingCol b.pendingContractToNonces
      (contract_nonces_updates.map (fun kv => (feltBytes kv.1, kv.2)))
    pendingContractStorage := storePendingCol b.pendingContractStorage
      (contract_kv_updates.map (fun kv => (make_storage_key kv.1.1 kv.1.2, kv.2))) }

/-- Range delete `delete_range_cf_opt(col, [], LAST_KEY)`: delete every key in the
half-open range `[[], LAST_KEY)`, i.e. every key lexicographically below
`LAST_KEY`. -/
def deleteRangeToLast (c : Column) : Column :=
  c.filter (fun e => !(bytesLt e.1 LAST_KEY))

/-- Clear operation `DeoxysBackend::contract_db_clear_pending`: range-delete the three
pending columns. -/
def contract_db_clear_pending (b : DeoxysBackend) : DeoxysBackend :=
  { b with
    pendingContractToNonces := deleteRangeToLast b.pendingContractToNonces
    pendingContractToClassHashes := deleteRangeToLast b.pendingContractToClassHashes
    pendingContractStorage := deleteRangeToLast b.pendingContractStorage }

/-! ## Specification-side lookup

The spec phrases the versioned-lookup contract numerically: a lookup at
block `N` returns the value recorded at the greatest recorded block
number `≤ N`, or nothing when no block `≤ N` holds a record.  The
definitions below state that contract directly over a column, and the main
theorem below proves the byte-level reverse scan equal to it. -/

/-- The value recorded for entity `p` exactly at block `n` (if any). -/
def recordedAt (c : Column) (p : Bytes) (n : Nat) : Option Nat :=
  colGet c (p ++ beBytes 4 n)

/-- The greatest block number `≤ N` at which entity `p` has a record. -/
def latestRecordedLe (c : Column) (p : Bytes) (N : Nat) : Option Nat :=
  ((List.range (N + 1)).reverse).find? (fun n => (recordedAt c p n).isSome)

/-- Reference lookup: value at the greatest recorded block `≤ N`. -/
def specGetAt (c : Column) (p : Bytes) (N : Nat) : Option Nat :=
  (latestRecordedLe c p N).bind (fun n => recordedAt c p n)

/-- A well-formed history key: fixed-width entity bytes followed by the
4-byte big-endian encoding of a `u32` block number. -/
def wfKey (w : Nat) (k : Bytes) : Prop :=
  ∃ q n, q.length = w ∧ n < 2 ^ 32 ∧ k = q ++ beBytes 4 n

/-- Every key of the column is a well-formed history key; this is the
on-disk layout invariant that `contract_db_store_block` maintains. -/
def wfCol (w : Nat) (c : Column) : Prop := ∀ e ∈ c, wfKey w e.1

theorem revRange_find?_eq_none (P : Nat → Bool) (N : Nat) :
    ((List.range (N + 1)).reverse.find? P = none) ↔ ∀ n, n ≤ N → P n = false := by
  rw [List.find?_eq_none]
  constructor
  · intro h n hn
    have := h n (by simp [List.mem_reverse, List.mem_range]; omega)
    simpa using this
  · intro h x hx
    simp only [List.mem_reverse, List.mem_range] at hx
    simp [h x (by omega)]

theorem revRange_find?_eq_some (P : Nat → Bool) (N : Nat) : ∀ n,
    (((List.range (N + 1)).reverse.find? P = some n) ↔
      (n ≤ N ∧ P n = true ∧ ∀ m, n < m → m ≤ N → P m = false)) := by
  induction N with
  | zero =>
    intro n
    have e0 : (List.range (0 + 1)).reverse = [0] := by decide
    rw [e0, List.find?_cons]
    constructor
    · intro hf
      cases h : P 0
      · simp [h] at hf
      · simp only [h, if_true] at hf
        injection hf with hf
        subst hf
        exact ⟨le_refl 0, h, by omega⟩
    · rintro ⟨hn, hPn, _⟩
      have hn0 : n = 0 := by omega
      subst hn0
      simp [hPn]
  | succ N ih =>
    intro n
    have hsplit : (List.range (N + 1 + 1)).reverse = (N + 1) :: (List.range (N + 1)).reverse := by
      rw [List.range_succ, List.reverse_append]
      rfl
    rw [hsplit, List.find?_cons]
    cases h : P (N + 1)
    · simp only
      rw [ih n]
      constructor
      · rintro ⟨hn, hPn, hmax⟩
        refine ⟨by omega, hPn, ?_⟩
        intro m hm1 hm2
        rcases Nat.lt_or_ge m (N + 1) with hm | hm
        · exact hmax m hm1 (by omega)
        · have : m = N + 1 := by omega
          rw [this]; exact h
      · rintro ⟨hn, hPn, hmax⟩
        have hne : n ≠ N + 1 := by
          intro he; rw [he, h] at hPn; exact absurd hPn (by simp)
        refine ⟨by omega, hPn, ?_⟩
        intro m hm1 hm2
        exact hmax m hm1 (by omega)
    · simp only [Option.some_inj]
      constructor
      · rintro rfl
        exact ⟨le_refl _, h, by omega⟩
      · rintro ⟨hn, hPn, hmax⟩
        rcases Nat.lt_or_ge n (N + 1) with hm | hm
        · have := hmax (N + 1) hm (le_refl _)
          rw [h] at this
          exact absurd this (by simp)
        · omega

theorem revIterNext_eq_none_iff (c : Column) (w : Nat) (start : Bytes) :
    revIterNext c w start = none ↔ ∀ e ∈ c, scanMatch w start e.1 = false := by
  induction c with
  | nil => simp [revIterNext]
  | cons e rest ih =>
    cases hg : scanMatch w start e.1
    · simp only [revIterNext, hg, Bool.false_eq_true, if_false]
      rw [ih]
      constructor
      · intro h e' he'
        rcases List.mem_cons.mp he' with rfl | hm
        · exact hg
        · exact h e' hm
      · intro h e' he'
        exact h e' (List.mem_cons_of_mem _ he')
    · simp only [revIterNext, hg, if_true]
      cases hr : revIterNext rest w start
      · simp only [reduceCtorEq, false_iff, not_forall]
        exact ⟨e, List.mem_cons_self e rest, by simp [hg]⟩
      · simp only
        constructor
        · intro h
          split at h <;> exact absurd h (by simp)
        · intro h
          have := h e (List.mem_cons_self e rest)
          rw [hg] at this
          exact absurd this (by simp)

theorem revIterNext_eq_some (c : Column) (w : Nat) (start : Bytes) : ∀ (k : Bytes) (v : Nat),
    revIterNext c w start = some (k, v) →
    scanMatch w start k = true ∧ colGet c k = some v ∧
      ∀ e ∈ c, scanMatch w start e.1 = true → bytesLe e.1 k = true := by
  induction c with
  | nil => intro k v h; simp [revIterNext] at h
  | cons e rest ih =>
    intro k v h
    cases hg : scanMatch w start e.1
    · rw [revIterNext, hg] at h
      simp only [Bool.false_eq_true, if_false] at h
      obtain ⟨h1, h2, h3⟩ := ih k v h
      have hne : e.1 ≠ k := by
        intro he; rw [he, h1] at hg; exact absurd hg (by simp)
      refine ⟨h1, ?_, ?_⟩
      · rw [colGet, List.find?_cons]
        have : (e.1 == k) = false := by simpa using hne
        rw [this]
        exact h2
      · intro e' he' hm
        rcases List.mem_cons.mp he' with rfl | hmem
        · rw [hm] at hg; exact absurd hg (by simp)
        · exact h3 e' hmem hm
    · rw [revIterNext, hg] at h
      simp only [if_true] at h
      cases hr : revIterNext rest w start with
      | none =>
        rw [hr] at h
        simp only [Option.some_inj] at h
        have he : e = (k, v) := h
        subst he
        refine ⟨hg, by simp [colGet, List.find?_cons], ?_⟩
        intro e' he' hm
        rcases List.mem_cons.mp he' with rfl | hmem
        · exact bytesLe_refl _
        · have := (revIterNext_eq_none_iff rest w start).mp hr e' hmem
          rw [hm] at this
          exact absurd this (by simp)
      | some a =>
        rw [hr] at h
        have h' : (if bytesLt e.1 a.1 = true then some a else some e) = some (k, v) := h
        clear h
        by_cases hlt : bytesLt e.1 a.1 = true
        · rw [if_pos hlt] at h'
          simp only [Option.some_inj] at h'
          subst h'
          obtain ⟨h1, h2, h3⟩ := ih k v hr
          have hne : e.1 ≠ k := by
            intro he
            rw [he] at hlt
            rw [bytesLt_irrefl] at hlt
            exact absurd hlt (by simp)
          refine ⟨h1, ?_, ?_⟩
          · rw [colGet, List.find?_cons]
            have : (e.1 == k) = false := by simpa using hne
            rw [this]
            exact h2
          · intro e' he' hm
            rcases List.mem_cons.mp he' with rfl | hmem
            · simp [bytesLe, hlt]
            · exact h3 e' hmem hm
        · rw [if_neg hlt] at h'
          simp only [Option.some_inj] at h'
          subst h'
          refine ⟨hg, by simp [colGet, List.find?_cons], ?_⟩
          intro e' he' hm
          rcases List.mem_cons.mp he' with rfl | hmem
          · exact bytesLe_refl _
          · cases ha : a with
            | mk ak av =>
              obtain ⟨_, _, h3⟩ := ih ak av (by rw [hr, ha])
              have h4 := h3 e' hmem hm
              have h5 : bytesLe ak k = true := by
                have h6 := bytesLe_of_not_lt hlt
                rw [ha] at h6
                exact h6
              exact bytesLe_trans h4 h5

theorem scanMatch_wf (w : Nat) (p : Bytes) (hp : p.length = w) (n N : Nat)
    (hn : n < 2 ^ 32) (hN : N < 2 ^ 32) :
    scanMatch w (p ++ beBytes 4 N) (p ++ beBytes 4 n) = true ↔ n ≤ N := by
  have h256 : (2 : Nat) ^ 32 = 256 ^ 4 := by norm_num
  rw [scanMatch, Bool.and_eq_true]
  have ht : ∀ m : Nat, (p ++ beBytes 4 m).take w = p := by
    intro m; rw [← hp, take_length_append]
  rw [ht, ht]
  simp only [beq_self_eq_true, true_and]
  exact bytesLe_append_beBytes_iff p 4 n N (h256 ▸ hn) (h256 ▸ hN)

/-- Correctness of the byte-level reverse prefix scan: on a well-formed
history column, `resolve_history_kv`'s non-pending tail computes exactly
the specification lookup "value at the greatest recorded block `≤ N`". -/
theorem historyLookup_spec (c : Column) (w : Nat) (p : Bytes) (N : Nat)
    (hwf : wfCol w c) (hp : p.length = w) (hN : N < 2 ^ 32) :
    historyLookup c w p N = .ok (specGetAt c p N) := by
  have h256 : (2 : Nat) ^ 32 = 256 ^ 4 := by norm_num
  rw [historyLookup, if_pos hN]
  cases hscan : revIterNext c w (p ++ beBytes 4 N) with
  | none =>
    have hall := (revIterNext_eq_none_iff c w _).mp hscan
    have hnone : latestRecordedLe c p N = none := by
      rw [latestRecordedLe, revRange_find?_eq_none]
      intro n hn
      cases hrec : (recordedAt c p n).isSome
      · rfl
      · exfalso
        have hrec' : (colGet c (p ++ beBytes 4 n)).isSome := by
          rw [recordedAt] at hrec; rw [hrec]
        obtain ⟨v, hv⟩ := colGet_isSome_ex hrec'
        have hfalse := hall _ hv
        have htrue := (scanMatch_wf w p hp n N (by omega) hN).mpr hn
        rw [htrue] at hfalse
        exact absurd hfalse (by simp)
    rw [specGetAt, hnone]
    rfl
  | some kv =>
    obtain ⟨k, v⟩ := kv
    obtain ⟨h1, h2, h3⟩ := revIterNext_eq_some c w _ k v hscan
    have hkmem : (k, v) ∈ c := colGet_eq_some_mem h2
    obtain ⟨q, n0, hq, hn0, hk⟩ := hwf _ hkmem
    subst hk
    rw [scanMatch, Bool.and_eq_true] at h1
    obtain ⟨hTake, hLe⟩ := h1
    have hqp : q = p := by
      have e1 : (q ++ beBytes 4 n0).take w = q := by rw [← hq, take_length_append]
      have e2 : (p ++ beBytes 4 N).take w = p := by rw [← hp, take_length_append]
      rw [e1, e2] at hTake
      exact beq_iff_eq.mp hTake
    subst hqp
    have hle : n0 ≤ N :=
      (bytesLe_append_beBytes_iff q 4 n0 N (h256 ▸ hn0) (h256 ▸ hN)).mp hLe
    have hfind : latestRecordedLe c q N = some n0 := by
      rw [latestRecordedLe, revRange_find?_eq_some]
      refine ⟨hle, ?_, ?_⟩
      · rw [recordedAt, h2]; rfl
      · intro m hm1 hm2
        cases hrec : (recordedAt c q m).isSome
        · rfl
        · exfalso
          have hrec' : (colGet c (q ++ beBytes 4 m)).isSome := by
            rw [recordedAt] at hrec; rw [hrec]
          obtain ⟨v', hv'⟩ := colGet_isSome_ex hrec'
          have hmono := h3 _ hv' ((scanMatch_wf w q hp m N (by omega) hN).mpr hm2)
          have : m ≤ n0 :=
            (bytesLe_append_beBytes_iff q 4 m n0
              (h256 ▸ (by omega : m < 2 ^ 32)) (h256 ▸ hn0)).mp hmono
          omega
    rw [specGetAt, hfind]
    simp [recordedAt, h2]

theorem feltBytes_length (x : Nat) : (feltBytes x).length = 32 :=
  beBytes_length 32 x

theorem make_storage_key_length (a k : Nat) : (make_storage_key a k).length = 64 := by
  rw [make_storage_key, List.length_append, feltBytes_length, feltBytes_length]

theorem wfCol_colPut {w : Nat} {c : Column} (h : wfCol w c) {k : Bytes}
    (hk : wfKey w k) (v : Nat) : wfCol w (colPut c k v) := by
  intro e he
  rcases List.mem_cons.mp he with rfl | hm
  · exact hk
  · exact h e (List.mem_of_mem_filter hm)

theorem wfCol_storeHistCol {w : Nat} (bn : Nat) (hbn : bn < 2 ^ 32) :
    ∀ (upds : List (Bytes × Nat)) (c : Column), wfCol w c →
    (∀ kv ∈ upds, kv.1.length = w) → wfCol w (storeHistCol c bn upds) := by
  intro upds
  induction upds with
  | nil => intro c hc _; exact hc
  | cons kv rest ih =>
    intro c hc hu
    rw [storeHistCol, List.foldl_cons]
    exact ih _ (wfCol_colPut hc ⟨kv.1, bn, hu kv (List.mem_cons_self kv rest), hbn, rfl⟩ kv.2)
      (fun e he => hu e (List.mem_cons_of_mem _ he))

/-- The operation `contract_db_store_block` maintains the on-disk layout invariant of the
three confirmed history columns. -/
theorem wfCol_contract_db_store_block {b b' : DeoxysBackend} {bn : Nat}
    {cu nu : List (Nat × Nat)} {su : List ((Nat × Nat) × Nat)}
    (h : contract_db_store_block b bn cu nu su = .ok b')
    (hC : wfCol 32 b.contractToClassHashes) (hN : wfCol 32 b.contractToNonces)
    (hS : wfCol 64 b.contractStorage) :
    wfCol 32 b'.contractToClassHashes ∧ wfCol 32 b'.contractToNonces ∧
      wfCol 64 b'.contractStorage := by
  rw [contract_db_store_block] at h
  by_cases hbn : bn < 2 ^ 32
  · rw [if_pos hbn] at h
    injection h with h
    subst h
    refine ⟨?_, ?_, ?_⟩
    · exact wfCol_storeHistCol bn hbn _ _ hC
        (by intro kv hkv; obtain ⟨x, _, hx⟩ := List.mem_map.mp hkv
            rw [← hx]; exact feltBytes_length x.1)
    · exact wfCol_storeHistCol bn hbn _ _ hN
        (by intro kv hkv; obtain ⟨x, _, hx⟩ := List.mem_map.mp hkv
            rw [← hx]; exact feltBytes_length x.1)
    · exact wfCol_storeHistCol bn hbn _ _ hS
        (by intro kv hkv; obtain ⟨x, _, hx⟩ := List.mem_map.mp hkv
            rw [← hx]; exact make_storage_key_length x.1.1 x.1.2)
  · rw [if_neg hbn] at h
    exact absurd h (by simp)

/-- C2.  Versioned lookup semantics: on any backend whose confirmed history
columns satisfy the on-disk layout invariant (in particular any backend
reached by `contract_db_store_block` calls), a lookup at a concrete
historical block `N` returns exactly the value recorded at the greatest
recorded block number `≤ N` — for class hashes, nonces and storage slots
alike — and `none` when the entity has no record at any block `≤ N`; and
after `contract_db_store_block N {addr ↦ v}`, the class-hash lookup reads
back `v` both at `N` and at every committed `N' ≥ N` below the next
recorded change of that entity. -/
theorem versioned_lookup_correct (b : DeoxysBackend)
    (hwfC : wfCol 32 b.contractToClassHashes)
    (hwfN : wfCol 32 b.contractToNonces)
    (hwfS : wfCol 64 b.contractStorage)
    (addr slot N : Nat) (hN : N < 2 ^ 32) :
    (get_contract_class_hash_at b (some (.BlockN N)) addr
        = .ok (specGetAt b.contractToClassHashes (feltBytes addr) N)) ∧
    (get_contract_nonce_at b (some (.BlockN N)) addr
        = .ok (specGetAt b.contractToNonces (feltBytes addr) N)) ∧
    (get_contract_storage_at b (some (.BlockN N)) addr slot
        = .ok (specGetAt b.contractStorage (make_storage_key addr slot) N)) ∧
    ((∀ m, m ≤ N → recordedAt b.contractToClassHashes (feltBytes addr) m = none) →
      get_contract_class_hash_at b (some (.BlockN N)) addr = .ok none) ∧
    (∀ v N' b', N ≤ N' → N' < 2 ^ 32 →
      contract_db_store_block b N [(addr, v)] [] [] = .ok b' →
      (∀ m, N < m → m ≤ N' →
        recordedAt b'.contractToClassHashes (feltBytes addr) m = none) →
      get_contract_class_hash_at b' (some (.BlockN N')) addr = .ok (some v)) := by
  have keyC := historyLookup_spec b.contractToClassHashes 32 (feltBytes addr) N
    hwfC (feltBytes_length addr) hN
  have keyN := historyLookup_spec b.contractToNonces 32 (feltBytes addr) N
    hwfN (feltBytes_length addr) hN
  have keyS := historyLookup_spec b.contractStorage 64 (make_storage_key addr slot) N
    hwfS (make_storage_key_length addr slot) hN
  refine ⟨keyC, keyN, keyS, ?_, ?_⟩
  · intro hnone
    rw [get_contract_class_hash_at]
    show historyLookup b.contractToClassHashes 32 (feltBytes addr) N = .ok none
    rw [keyC]
    have hlr : latestRecordedLe b.contractToClassHashes (feltBytes addr) N = none := by
      rw [latestRecordedLe, revRange_find?_eq_none]
      intro n hn
      rw [hnone n hn]
      rfl
    rw [specGetAt, hlr]
    rfl
  · intro v N' b' hNN' hN' hstore hgap
    rw [contract_db_store_block, if_pos hN] at hstore
    injection hstore with hstore
    subst hstore
    rw [get_contract_class_hash_at]
    show historyLookup (storeHistCol b.contractToClassHashes N
      ([(addr, v)].map (fun kv => (feltBytes kv.1, kv.2)))) 32 (feltBytes addr) N'
        = .ok (some v)
    have hcol : storeHistCol b.contractToClassHashes N
        ([(addr, v)].map (fun kv => (feltBytes kv.1, kv.2)))
        = colPut b.contractToClassHashes (feltBytes addr ++ beBytes 4 N) v := by
      rw [storeHistCol]
      rfl
    rw [hcol]
    have hwf' : wfCol 32 (colPut b.contractToClassHashes (feltBytes addr ++ beBytes 4 N) v) :=
      wfCol_colPut hwfC ⟨feltBytes addr, N, feltBytes_length addr, hN, rfl⟩ v
    rw [historyLookup_spec _ 32 (feltBytes addr) N' hwf' (feltBytes_length addr) hN']
    have hrecN : recordedAt (colPut b.contractToClassHashes
        (feltBytes addr ++ beBytes 4 N) v) (feltBytes addr) N = some v := by
      rw [recordedAt, colGet_colPut_self]
    have hlr : latestRecordedLe (colPut b.contractToClassHashes
        (feltBytes addr ++ beBytes 4 N) v) (feltBytes addr) N' = some N := by
      rw [latestRecordedLe, revRange_find?_eq_some]
      refine ⟨hNN', by rw [hrecN]; rfl, ?_⟩
      intro m hm1 hm2
      have hg := hgap m hm1 hm2
      dsimp only at hg
      rw [hcol] at hg
      rw [hg]
      rfl
    rw [specGetAt, hlr]
    simp [hrecN]

theorem feltP_lt_pow : feltP < 2 ^ 252 := by norm_num [feltP]

theorem LAST_KEY_cons : LAST_KEY = 255 :: List.replicate 63 255 := by
  rw [LAST_KEY]
  rfl

theorem head_byte_small {x : Nat} (hx : x < feltP) : x / 256 ^ 31 < 255 := by
  have h252 : x < 2 ^ 252 := lt_trans hx feltP_lt_pow
  have h31 : (256 : Nat) ^ 31 = 2 ^ 248 := by norm_num
  rw [h31]
  have h16 : x / 2 ^ 248 < 16 := by
    apply Nat.div_lt_of_lt_mul
    calc x < 2 ^ 252 := h252
      _ = 2 ^ 248 * 16 := by norm_num
  omega

/-- Every pending key written for a real field element sorts strictly below
`LAST_KEY`, so `delete_range(.., [], LAST_KEY)` removes it. -/
theorem feltBytes_lt_LAST_KEY {x : Nat} (hx : x < feltP) :
    bytesLt (feltBytes x) LAST_KEY = true := by
  rw [LAST_KEY_cons]
  show bytesLt (x / 256 ^ 31 :: beBytes 31 (x % 256 ^ 31)) (255 :: List.replicate 63 255) = true
  rw [bytesLt, if_pos (head_byte_small hx)]

theorem make_storage_key_lt_LAST_KEY {a : Nat} (ha : a < feltP) (k : Nat) :
    bytesLt (make_storage_key a k) LAST_KEY = true := by
  rw [LAST_KEY_cons]
  show bytesLt (a / 256 ^ 31 :: (beBytes 31 (a % 256 ^ 31) ++ feltBytes k))
      (255 :: List.replicate 63 255) = true
  rw [bytesLt, if_pos (head_byte_small ha)]

theorem resolve_history_kv_pending (pc nc : Column) (latest : Option Nat) (w : Nat)
    (pk k : Bytes) :
    resolve_history_kv pc nc latest w (some .Pending) pk k =
      (match colGet pc pk with
       | some v => .ok (some v)
       | none =>
         match latest with
         | none => .ok none
         | some blockN => historyLookup nc w k blockN) := rfl

theorem resolve_history_kv_blockN (pc nc : Column) (latest : Option Nat) (w : Nat)
    (pk k : Bytes) (n : Nat) :
    resolve_history_kv pc nc latest w (some (.BlockN n)) pk k
      = historyLookup nc w k n := rfl

theorem resolve_history_kv_unresolved (pc nc : Column) (latest : Option Nat) (w : Nat)
    (pk k : Bytes) :
    resolve_history_kv pc nc latest w none pk k = .ok none := rfl

/-- C5.  Oversized block numbers are rejected, never truncated: any block
number outside the `u32` range makes every historical read return
`InvalidBlockNumber`, and makes `contract_db_store_block` return
`InvalidBlockNumber` without producing any new store state (the `u32`
check precedes every write). -/
theorem oversized_block_number_rejected (b : DeoxysBackend) (bn : Nat)
    (h : 2 ^ 32 ≤ bn) (addr slot : Nat)
    (cu nu : List (Nat × Nat)) (su : List ((Nat × Nat) × Nat)) :
    (get_contract_class_hash_at b (some (.BlockN bn)) addr
        = .error .InvalidBlockNumber) ∧
    (get_contract_nonce_at b (some (.BlockN bn)) addr
        = .error .InvalidBlockNumber) ∧
    (get_contract_storage_at b (some (.BlockN bn)) addr slot
        = .error .InvalidBlockNumber) ∧
    (contract_db_store_block b bn cu nu su = .error .InvalidBlockNumber) := by
  have hlt : ¬ bn < 2 ^ 32 := by omega
  refine ⟨?_, ?_, ?_, ?_⟩
  · show historyLookup b.contractToClassHashes CONTRACT_CLASS_HASH_KEY_WIDTH
      (feltBytes addr) bn = .error .InvalidBlockNumber
    rw [historyLookup, if_neg hlt]
  · show historyLookup b.contractToNonces CONTRACT_NONCES_KEY_WIDTH
      (feltBytes addr) bn = .error .InvalidBlockNumber
    rw [historyLookup, if_neg hlt]
  · show historyLookup b.contractStorage CONTRACT_STORAGE_KEY_WIDTH
      (make_storage_key addr slot) bn = .error .InvalidBlockNumber
    rw [historyLookup, if_neg hlt]
  · rw [contract_db_store_block, if_neg hlt]

/-- C10.  Non-existence is not an error at the read interface: a block id
that fails to resolve yields `Ok(None)` for all three entity kinds, and a
pending-tagged read on a store whose pending overlay is empty and which has
no committed block also yields `Ok(None)`. -/
theorem nonexistence_reads_ok_none (b : DeoxysBackend) (addr slot : Nat)
    (hpc : b.pendingContractToClassHashes = [])
    (hpn : b.pendingContractToNonces = [])
    (hps : b.pendingContractStorage = [])
    (hl : b.latestBlockN = none) :
    (get_contract_class_hash_at b none addr = .ok none) ∧
    (get_contract_nonce_at b none addr = .ok none) ∧
    (get_contract_storage_at b none addr slot = .ok none) ∧
    (get_contract_class_hash_at b (some .Pending) addr = .ok none) ∧
    (get_contract_nonce_at b (some .Pending) addr = .ok none) ∧
    (get_contract_storage_at b (some .Pending) addr slot = .ok none) := by
  refine ⟨rfl, rfl, rfl, ?_, ?_, ?_⟩
  · show resolve_history_kv b.pendingContractToClassHashes b.contractToClassHashes
      b.latestBlockN CONTRACT_CLASS_HASH_KEY_WIDTH (some .Pending)
      (bincodeFelt addr) (feltBytes addr) = .ok none
    rw [resolve_history_kv_pending, hpc, hl]
    rfl
  · show resolve_history_kv b.pendingContractToNonces b.contractToNonces
      b.latestBlockN CONTRACT_NONCES_KEY_WIDTH (some .Pending)
      (bincodeFelt addr) (feltBytes addr) = .ok none
    rw [resolve_history_kv_pending, hpn, hl]
    rfl
  · show resolve_history_kv b.pendingContractStorage b.contractStorage
      b.latestBlockN CONTRACT_STORAGE_KEY_WIDTH (some .Pending)
      (bincodeFeltPair addr slot) (make_storage_key addr slot) = .ok none
    rw [resolve_history_kv_pending, hps, hl]
    rfl

/-- A backend with no data at all. -/
def emptyBackend : DeoxysBackend :=
  { contractToClassHashes := []
    contractToNonces := []
    contractStorage := []
    pendingContractToClassHashes := []
    pendingContractToNonces := []
    pendingContractStorage := []
    latestBlockN := none }

/-- A backend holding confirmed class-hash records for contract `7` at
blocks `2` and `5` (the spec's reverse-lookup scenario) and a confirmed
class hash for contract `3` at block `0`. -/
def scenarioBackend : DeoxysBackend :=
  { contractToClassHashes :=
      [(feltBytes 7 ++ beBytes 4 2, 100), (feltBytes 7 ++ beBytes 4 5, 200),
       (feltBytes 3 ++ beBytes 4 0, 99)]
    contractToNonces := []
    contractStorage := []
    pendingContractToClassHashes := []
    pendingContractToNonces := []
    pendingContractStorage := []
    latestBlockN := some 5 }

theorem scenarioBackend_wfC : wfCol 32 scenarioBackend.contractToClassHashes := by
  intro e he
  rw [scenarioBackend] at he
  simp only [List.mem_cons, List.not_mem_nil, or_false] at he
  rcases he with he | he | he
  · exact ⟨feltBytes 7, 2, feltBytes_length 7, by norm_num, by rw [he]⟩
  · exact ⟨feltBytes 7, 5, feltBytes_length 7, by norm_num, by rw [he]⟩
  · exact ⟨feltBytes 3, 0, feltBytes_length 3, by norm_num, by rw [he]⟩

theorem wfCol_nil (w : Nat) : wfCol w [] := by
  intro e he
  cases he

/-- Witness for C2: on the spec's reverse-lookup scenario (records at
blocks 2 and 5), the lookup at block 4 returns the block-2 value. -/
theorem versioned_lookup_correct_witness :
    get_contract_class_hash_at scenarioBackend (some (.BlockN 4)) 7 = .ok (some 100) := by
  have h := (versioned_lookup_correct scenarioBackend scenarioBackend_wfC
    (wfCol_nil 32) (wfCol_nil 64) 7 0 4 (by norm_num)).1
  rw [h]
  rfl

/-- C1.  Evaluation of the code at the failing input:
`contract_db_store_pending` writes the class hash `11` for contract `3`
under the raw 32-byte key `to_bytes_be(3)` (contract_db.rs line 216), but
the pending-tagged read keys the pending column on `bincode::serialize(3)`
(line 49) — a 40-byte length-prefixed string that never equals the raw
written key — so the read misses the overlay and falls back to the
confirmed class hash `99` recorded at block `0`, instead of returning the
just-written pending value `11` as the claim (and the spec's pending
overlay design) requires. -/
theorem pending_overlay_read_misses_write :
    get_contract_class_hash_at
        (contract_db_store_pending scenarioBackend [(3, 11)] [] [])
        (some .Pending) 3 = .ok (some 99) ∧
    get_contract_class_hash_at
        (contract_db_store_pending scenarioBackend [(3, 11)] [] [])
        (some .Pending) 3 ≠ .ok (some 11) := by
  have h99 : get_contract_class_hash_at
      (contract_db_store_pending scenarioBackend [(3, 11)] [] [])
      (some .Pending) 3 = .ok (some 99) := rfl
  refine ⟨h99, ?_⟩
  rw [h99]
  simp

/-- Witness for C5 at the smallest oversized block number. -/
theorem oversized_block_number_rejected_witness :
    contract_db_store_block emptyBackend (2 ^ 32) [(1, 5)] [] []
      = .error .InvalidBlockNumber :=
  (oversized_block_number_rejected emptyBackend (2 ^ 32) (le_refl _) 1 2
    [(1, 5)] [] []).2.2.2

/-- Witness for C10 on the empty backend. -/
theorem nonexistence_reads_ok_none_witness :
    get_contract_class_hash_at emptyBackend (some .Pending) 1 = .ok none :=
  (nonexistence_reads_ok_none emptyBackend 1 2 rfl rfl rfl rfl).2.2.2.1

/-! ## Idempotence of block application -/

/-- Apply a list of point writes in order (the sequential linearization of
one `par_chunks` write-out). -/
def putFold (c : Column) (u : List (Bytes × Nat)) : Column :=
  u.foldl (fun c kv => colPut c kv.1 kv.2) c

theorem storeHistCol_eq_putFold (c : Column) (bn : Nat) (upds : List (Bytes × Nat)) :
    storeHistCol c bn upds
      = putFold c (upds.map (fun kv => (kv.1 ++ beBytes 4 bn, kv.2))) := by
  rw [storeHistCol, putFold, List.foldl_map]

theorem colErase_comm (k k' : Bytes) (c : Column) :
    colErase k (colErase k' c) = colErase k' (colErase k c) := by
  rw [colErase, colErase, colErase, colErase, List.filter_filter, List.filter_filter]
  congr 1
  funext e
  exact Bool.and_comm _ _

theorem colErase_idem (k : Bytes) (c : Column) :
    colErase k (colErase k c) = colErase k c := by
  rw [colErase, colErase, List.filter_filter]
  congr 1
  funext e
  exact Bool.and_self _

theorem colErase_colPut_same (k : Bytes) (v : Nat) (c : Column) :
    colErase k (colPut c k v) = colErase k c := by
  rw [colPut, colErase, List.filter_cons]
  have hk : (!(k == k)) = false := by simp
  rw [hk]
  simp only [Bool.false_eq_true, if_false]
  exact colErase_idem k c

theorem colErase_colPut_ne (k k' : Bytes) (hne : k' ≠ k) (v : Nat) (c : Column) :
    colErase k (colPut c k' v) = colPut (colErase k c) k' v := by
  rw [colPut, colErase, List.filter_cons]
  have hk : (!(k' == k)) = true := by simpa using hne
  rw [hk]
  simp only [if_true]
  rw [show List.filter (fun e => !(e.1 == k)) (colErase k' c)
      = colErase k (colErase k' c) from rfl]
  rw [colErase_comm, colPut]

theorem colErase_putFold (k : Bytes) : ∀ (u : List (Bytes × Nat)) (c : Column),
    colErase k (putFold c u)
      = putFold (colErase k c) (u.filter (fun kv => !(kv.1 == k))) := by
  intro u
  induction u with
  | nil => intro c; rfl
  | cons kv u' ih =>
    intro c
    have step : putFold c (kv :: u') = putFold (colPut c kv.1 kv.2) u' := rfl
    rw [step, ih, List.filter_cons]
    by_cases hk : kv.1 = k
    · have : (!(kv.1 == k)) = false := by simpa using hk
      rw [this]
      simp only [Bool.false_eq_true, if_false]
      rw [hk, colErase_colPut_same]
    · have : (!(kv.1 == k)) = true := by simpa using hk
      rw [this]
      simp only [if_true]
      rw [colErase_colPut_ne k kv.1 hk]
      rfl

theorem colPut_congr {A B : Column} (k : Bytes) (v : Nat)
    (h : colErase k A = colErase k B) : colPut A k v = colPut B k v := by
  rw [colPut, colPut, h]

theorem putFold_idem : ∀ (u : List (Bytes × Nat)), (u.map Prod.fst).Nodup →
    ∀ c, putFold (putFold c u) u = putFold c u := by
  intro u
  induction u using List.reverseRecOn with
  | nil => intro _ c; rfl
  | append_singleton u' x ih =>
    intro hnd c
    rw [List.map_append] at hnd
    have hnd' : (u'.map Prod.fst).Nodup := (List.nodup_append.mp hnd).1
    have hx : x.1 ∉ u'.map Prod.fst := by
      have hdisj := (List.nodup_append.mp hnd).2.2
      intro hmem
      exact hdisj hmem (by simp)
    have e1 : ∀ d : Column, putFold d (u' ++ [x]) = colPut (putFold d u') x.1 x.2 := by
      intro d
      rw [putFold, List.foldl_append]
      rfl
    rw [e1, e1]
    apply colPut_congr
    have hfu : u'.filter (fun kv => !(kv.1 == x.1)) = u' := by
      apply List.filter_eq_self.mpr
      intro kv hkv
      have : kv.1 ≠ x.1 := by
        intro he
        exact hx (he ▸ List.mem_map_of_mem Prod.fst hkv)
      simpa using this
    rw [colErase_putFold, colErase_colPut_same, hfu]
    rw [colErase_putFold, hfu]
    exact ih hnd' (colErase x.1 c)

theorem feltP_lt_keyspace : feltP < 256 ^ 32 := by norm_num [feltP]

theorem feltBytes_inj_of_lt {x y : Nat} (hx : x < feltP) (hy : y < feltP)
    (h : feltBytes x = feltBytes y) : x = y :=
  beBytes_inj (lt_trans hx feltP_lt_keyspace) (lt_trans hy feltP_lt_keyspace) h

theorem make_storage_key_inj {a k a' k' : Nat} (ha : a < feltP) (hk : k < feltP)
    (ha' : a' < feltP) (hk' : k' < feltP)
    (h : make_storage_key a k = make_storage_key a' k') : a = a' ∧ k = k' := by
  obtain ⟨h1, h2⟩ := List.append_inj h (by rw [feltBytes_length, feltBytes_length])
  exact ⟨feltBytes_inj_of_lt ha ha' h1, feltBytes_inj_of_lt hk hk' h2⟩

theorem nodup_hist_keys_felt (cu : List (Nat × Nat)) (bn : Nat)
    (hnd : (cu.map Prod.fst).Nodup) (hb : ∀ kv ∈ cu, kv.1 < feltP) :
    (cu.map (fun kv => feltBytes kv.1 ++ beBytes 4 bn)).Nodup := by
  have e : cu.map (fun kv => feltBytes kv.1 ++ beBytes 4 bn)
      = (cu.map Prod.fst).map (fun a => feltBytes a ++ beBytes 4 bn) := by
    rw [List.map_map]
    rfl
  rw [e]
  apply List.Nodup.map_on _ hnd
  intro x hx y hy hxy
  obtain ⟨kx, hkx, hkx2⟩ := List.mem_map.mp hx
  obtain ⟨ky, hky, hky2⟩ := List.mem_map.mp hy
  have hxb : x < feltP := hkx2 ▸ hb kx hkx
  have hyb : y < feltP := hky2 ▸ hb ky hky
  exact feltBytes_inj_of_lt hxb hyb
    (List.append_inj hxy (by rw [feltBytes_length, feltBytes_length])).1

theorem nodup_hist_keys_storage (su : List ((Nat × Nat) × Nat)) (bn : Nat)
    (hnd : (su.map Prod.fst).Nodup)
    (hb : ∀ kv ∈ su, kv.1.1 < feltP ∧ kv.1.2 < feltP) :
    (su.map (fun kv => make_storage_key kv.1.1 kv.1.2 ++ beBytes 4 bn)).Nodup := by
  have e : su.map (fun kv => make_storage_key kv.1.1 kv.1.2 ++ beBytes 4 bn)
      = (su.map Prod.fst).map (fun a => make_storage_key a.1 a.2 ++ beBytes 4 bn) := by
    rw [List.map_map]
    rfl
  rw [e]
  apply List.Nodup.map_on _ hnd
  intro x hx y hy hxy
  obtain ⟨kx, hkx, hkx2⟩ := List.mem_map.mp hx
  obtain ⟨ky, hky, hky2⟩ := List.mem_map.mp hy
  have hxb := hkx2 ▸ hb kx hkx
  have hyb := hky2 ▸ hb ky hky
  have hkey : make_storage_key x.1 x.2 = make_storage_key y.1 y.2 :=
    (List.append_inj hxy
      (by rw [make_storage_key_length, make_storage_key_length])).1
  obtain ⟨e1, e2⟩ := make_storage_key_inj hxb.1 hxb.2 hyb.1 hyb.2 hkey
  exact Prod.ext e1 e2

/-- One confirmed history column after a repeated identical block write
equals the column after a single write. -/
theorem storeHistCol_idem (c : Column) (bn : Nat) (upds : List (Bytes × Nat))
    (hnd : (upds.map (fun kv => kv.1 ++ beBytes 4 bn)).Nodup) :
    storeHistCol (storeHistCol c bn upds) bn upds = storeHistCol c bn upds := by
  simp only [storeHistCol_eq_putFold]
  apply putFold_idem
  have e : (upds.map (fun kv => (kv.1 ++ beBytes 4 bn, kv.2))).map Prod.fst
      = upds.map (fun kv => kv.1 ++ beBytes 4 bn) := by
    rw [List.map_map]
    rfl
  rw [e]
  exact hnd

/-- C6.  Idempotence of `contract_db_store_block`: if applying a state
diff (a map: each entity assigned at most once, keys being field elements)
at block `bn` succeeds and yields store `b'`, applying the identical diff
again yields exactly `b'` — the stored values and hence every subsequent
query result are unchanged by the second application. -/
theorem store_block_idempotent (b : DeoxysBackend) (bn : Nat)
    (cu nu : List (Nat × Nat)) (su : List ((Nat × Nat) × Nat))
    (hcu : (cu.map Prod.fst).Nodup) (hnu : (nu.map Prod.fst).Nodup)
    (hsu : (su.map Prod.fst).Nodup)
    (hbc : ∀ kv ∈ cu, kv.1 < feltP) (hbnn : ∀ kv ∈ nu, kv.1 < feltP)
    (hbs : ∀ kv ∈ su, kv.1.1 < feltP ∧ kv.1.2 < feltP) :
    ∀ b', contract_db_store_block b bn cu nu su = .ok b' →
      contract_db_store_block b' bn cu nu su = .ok b' := by
  intro b' h
  by_cases hlt : bn < 2 ^ 32
  · rw [contract_db_store_block, if_pos hlt] at h
    injection h with h
    subst h
    rw [contract_db_store_block, if_pos hlt]
    refine congrArg Except.ok ?_
    have ecu : (cu.map (fun kv => (feltBytes kv.1, kv.2))).map
        (fun kv : Bytes × Nat => kv.1 ++ beBytes 4 bn)
        = cu.map (fun kv => feltBytes kv.1 ++ beBytes 4 bn) := by
      rw [List.map_map]
      rfl
    have enu : (nu.map (fun kv => (feltBytes kv.1, kv.2))).map
        (fun kv : Bytes × Nat => kv.1 ++ beBytes 4 bn)
        = nu.map (fun kv => feltBytes kv.1 ++ beBytes 4 bn) := by
      rw [List.map_map]
      rfl
    have esu : (su.map (fun kv => (make_storage_key kv.1.1 kv.1.2, kv.2))).map
        (fun kv : Bytes × Nat => kv.1 ++ beBytes 4 bn)
        = su.map (fun kv => make_storage_key kv.1.1 kv.1.2 ++ beBytes 4 bn) := by
      rw [List.map_map]
      rfl
    have hC := storeHistCol_idem b.contractToClassHashes bn
      (cu.map (fun kv => (feltBytes kv.1, kv.2)))
      (by rw [ecu]; exact nodup_hist_keys_felt cu bn hcu hbc)
    have hNn := storeHistCol_idem b.contractToNonces bn
      (nu.map (fun kv => (feltBytes kv.1, kv.2)))
      (by rw [enu]; exact nodup_hist_keys_felt nu bn hnu hbnn)
    have hS := storeHistCol_idem b.contractStorage bn
      (su.map (fun kv => (make_storage_key kv.1.1 kv.1.2, kv.2)))
      (by rw [esu]; exact nodup_hist_keys_storage su bn hsu hbs)
    simp only [DeoxysBackend.mk.injEq]
    exact ⟨hC, hNn, hS, trivial, trivial, trivial, trivial⟩
  · rw [contract_db_store_block, if_neg hlt] at h
    exact absurd h (by simp)

/-- Witness for C6 on a concrete three-column diff. -/
theorem store_block_idempotent_witness :
    (contract_db_store_block emptyBackend 3 [(1, 10), (2, 20)] [(1, 7)]
        [((1, 2), 9)]).bind
      (fun b' => contract_db_store_block b' 3 [(1, 10), (2, 20)] [(1, 7)] [((1, 2), 9)])
    = contract_db_store_block emptyBackend 3 [(1, 10), (2, 20)] [(1, 7)] [((1, 2), 9)] := by
  have h := store_block_idempotent emptyBackend 3 [(1, 10), (2, 20)] [(1, 7)] [((1, 2), 9)]
    (by decide) (by decide) (by decide) (by decide) (by decide) (by decide)
  cases hstore : contract_db_store_block emptyBackend 3 [(1, 10), (2, 20)] [(1, 7)]
      [((1, 2), 9)] with
  | error e =>
    rw [contract_db_store_block, if_pos (by norm_num)] at hstore
    exact absurd hstore (by simp)
  | ok b' =>
    show contract_db_store_block b' 3 [(1, 10), (2, 20)] [(1, 7)] [((1, 2), 9)] = .ok b'
    exact h b' hstore

/-! ## The pending-block poll task (`crates/client/sync/src/l2.rs`,
`l2_pending_block_task`)

One loop cycle performs, in order: `backend.get_block_hash(Latest)` (a DB
read whose error is propagated with `?`), `fetch_pending_block_and_updates`
(a gateway fetch whose error is propagated with `?`, and whose `Ok(None)`
makes the cycle `continue`), then `import_block()` =
`pre_validate_pending` followed by `verify_apply_pending`, whose error is
only logged (`if let Err(err) ... tracing::debug!`).  The environment of a
cycle is modelled by the outcomes of these four calls; the poll loop runs
over a finite schedule of cycle environments. -/

/-- Outcomes of the four awaited calls inside one poll cycle. -/
structure PollCycleInput where
  getHash : Except Unit (Option Nat)
  fetch : Except Unit (Option Nat)
  preValidate : Except Unit Unit
  verifyApply : Except Unit Unit
  deriving Repr

/-- The error with which the task's own future resolves, when a cycle is
fatal. -/
inductive PollFatalError where
  | dbHash
  | fetchGateway
  deriving DecidableEq, Repr

/-- Whether an `Except` is `Ok`. -/
def isOkE {ε α : Type} : Except ε α → Bool
  | .ok _ => true
  | .error _ => false

/-- One timer tick of the poll-loop body: `none` means the loop proceeds to
the next tick, `some e` means the task returns `Err(e)`. -/
def pending_poll_cycle (c : PollCycleInput) : Option PollFatalError :=
  match c.getHash with
  | .error _ => some .dbHash
  | .ok _ =>
    match c.fetch with
    | .error _ => some .fetchGateway
    | .ok none => none
    | .ok (some _) =>
      match c.preValidate with
      | .error _ => none
      | .ok _ =>
        match c.verifyApply with
        | .error _ => none
        | .ok _ => none

/-- The poll loop over a finite schedule: number of cycles that executed,
and the task outcome (`none`: every scheduled cycle ran and the loop would
keep ticking; `some e`: the task returned `Err(e)` mid-schedule). -/
def pending_poll_loop : List PollCycleInput → Nat × Option PollFatalError
  | [] => (0, none)
  | c :: rest =>
    match pending_poll_cycle c with
    | none => ((pending_poll_loop rest).1 + 1, (pending_poll_loop rest).2)
    | some e => (1, some e)

/-- Counterexample to C3 as stated: a gateway error while fetching the
pending block is propagated with `?` and terminates the task after the
first of two scheduled cycles, instead of being logged and skipped. -/
theorem pending_poll_errors_cex :
    pending_poll_loop
        [⟨.ok none, .error (), .ok (), .ok ()⟩, ⟨.ok none, .ok none, .ok (), .ok ()⟩]
      = (1, some .fetchGateway) := rfl

/-- C3 (amended).  Errors raised while pre-validating or applying the
pending block are logged and swallowed: if every cycle's DB read and
gateway fetch succeed, the loop executes its entire schedule and the task
never returns an error, whatever the import outcomes; DB-read and
gateway-fetch errors, by contrast, propagate (see the counterexample). -/
theorem pending_poll_import_errors_nonfatal (cs : List PollCycleInput)
    (h : ∀ c ∈ cs, isOkE c.getHash = true ∧ isOkE c.fetch = true) :
    pending_poll_loop cs = (cs.length, none) := by
  induction cs with
  | nil => rfl
  | cons c rest ih =>
    obtain ⟨hg, hf⟩ := h c (List.mem_cons_self c rest)
    have hc : pending_poll_cycle c = none := by
      obtain ⟨g, f, p, va⟩ := c
      cases g with
      | error e => exact absurd hg (by simp [isOkE])
      | ok x =>
        cases f with
        | error e => exact absurd hf (by simp [isOkE])
        | ok y =>
          cases y with
          | none => rfl
          | some blk =>
            cases p with
            | error e => rfl
            | ok u =>
              cases va with
              | error e => rfl
              | ok u => rfl
    have step : pending_poll_loop (c :: rest)
        = (match pending_poll_cycle c with
           | none => ((pending_poll_loop rest).1 + 1, (pending_poll_loop rest).2)
           | some e => (1, some e)) := rfl
    rw [step, hc, ih (fun c' hc' => h c' (List.mem_cons_of_mem c hc'))]
    rfl

/-- Witness for the amended C3: a schedule whose first cycle fails
pre-validation still runs to completion without a task error. -/
theorem pending_poll_import_errors_nonfatal_witness :
    pending_poll_loop
        [⟨.ok (some 5), .ok (some 1), .error (), .ok ()⟩,
         ⟨.ok none, .ok none, .ok (), .ok ()⟩]
      = (2, none) :=
  pending_poll_import_errors_nonfatal
    [⟨.ok (some 5), .ok (some 1), .error (), .ok ()⟩,
     ⟨.ok none, .ok none, .ok (), .ok ()⟩] (by decide)

/-! ## The pending task's startup sequence (C8)

`l2_pending_block_task` first calls `clear_pending_block()` (propagating
its error with `?`), then awaits the one-shot `sync_finished_cb`; if the
channel closed without firing it returns `Ok(())` immediately, otherwise it
enters the poll loop above. -/

/-- Observable events of the pending task. -/
inductive PendingTaskEvent where
  | clearPendingEv
  | pollCycleEv (i : Nat)
  deriving DecidableEq, Repr

/-- Resolution of the pending task's future. -/
inductive PendingTaskResult where
  | ok
  | errClearPending
  | errDbHash
  | errFetchGateway
  deriving DecidableEq, Repr

/-- Model of `l2_pending_block_task`: the event trace (clear-pending, then the poll
cycles that executed) and the task result, as a function of the
clear-pending outcome, whether the caught-up signal fired (`false` models
the oneshot channel closing without a message), and the cycle
environments. -/
def l2_pending_block_task_model (clearRes : Except Unit Unit)
    (caughtUpSignal : Bool) (cycles : List PollCycleInput) :
    List PendingTaskEvent × PendingTaskResult :=
  match clearRes with
  | .error _ => ([.clearPendingEv], .errClearPending)
  | .ok _ =>
    if caughtUpSignal then
      (.clearPendingEv :: (List.range (pending_poll_loop cycles).1).map .pollCycleEv,
       match (pending_poll_loop cycles).2 with
       | none => .ok
       | some .dbHash => .errDbHash
       | some .fetchGateway => .errFetchGateway)
    else ([.clearPendingEv], .ok)

/-- C8.  Pending-task startup ordering: in every execution, the
clear-pending event is the first event (so it precedes every poll cycle);
a poll cycle can only appear in the trace when the caught-up signal fired;
and when the signal channel closes without firing, the trace is exactly
the clear-pending event — the task exits without ever polling. -/
theorem pending_task_startup_ordering (clearRes : Except Unit Unit)
    (caughtUpSignal : Bool) (cycles : List PollCycleInput) :
    ((l2_pending_block_task_model clearRes caughtUpSignal cycles).1.head?
        = some .clearPendingEv) ∧
    (∀ i, PendingTaskEvent.pollCycleEv i
        ∈ (l2_pending_block_task_model clearRes caughtUpSignal cycles).1 →
      caughtUpSignal = true) ∧
    (caughtUpSignal = false →
      (l2_pending_block_task_model clearRes caughtUpSignal cycles).1
        = [.clearPendingEv]) := by
  cases clearRes with
  | error e =>
    refine ⟨rfl, ?_, fun _ => rfl⟩
    intro i hi
    have hi' : PendingTaskEvent.pollCycleEv i ∈ [PendingTaskEvent.clearPendingEv] := hi
    simp at hi'
  | ok u =>
    cases caughtUpSignal with
    | false =>
      refine ⟨rfl, ?_, fun _ => rfl⟩
      intro i hi
      have hi' : PendingTaskEvent.pollCycleEv i ∈ [PendingTaskEvent.clearPendingEv] := hi
      simp at hi'
    | true =>
      refine ⟨rfl, fun _ _ => rfl, ?_⟩
      intro hfalse
      exact absurd hfalse (by simp)

/-- Witness for C8: with the signal channel closed, the task's trace is
the clear-pending event alone. -/
theorem pending_task_startup_ordering_witness :
    (l2_pending_block_task_model (.ok ()) false
        [⟨.ok none, .ok none, .ok (), .ok ()⟩]).1 = [.clearPendingEv] :=
  (pending_task_startup_ordering (.ok ()) false
    [⟨.ok none, .ok none, .ok (), .ok ()⟩]).2.2 rfl

/-! ## The verify-and-apply (commit) task (`l2_verify_and_apply_task`)

Per received block the task runs `block_import.verify_apply` (its error
propagates with `?` before anything else happens), emits the imported-block
log/telemetry, and — when `backup_every_n_blocks.is_some_and(|k| n % k == 0)`
— awaits `backend.backup()`, whose error is wrapped with
`.context("backing up database")` and propagated with `?`. -/

/-- Outcomes of the awaited calls for one received block: `verifyApply`
carries the imported header's block number on success. -/
structure CommitInput where
  verifyApply : Except Unit Nat
  backup : Except Unit Unit
  deriving Repr

/-- Resolution of the commit task's future over a finite schedule. -/
inductive CommitResult where
  | ok
  | errImport
  | errBackup
  deriving DecidableEq, Repr

/-- Condition `backup_every_n_blocks.is_some_and(|k| block_number % k == 0)`. -/
def backupDue (backupEveryN : Option Nat) (n : Nat) : Bool :=
  match backupEveryN with
  | none => false
  | some k => n % k == 0

/-- The commit task's receive loop: returns the list of block numbers that
were imported (i.e. whose `verify_apply` completed and whose
"✨ Imported" event fired) and the task result. -/
def l2_verify_and_apply_model (backupEveryN : Option Nat) :
    List CommitInput → List Nat × CommitResult
  | [] => ([], .ok)
  | c :: rest =>
    match c.verifyApply with
    | .error _ => ([], .errImport)
    | .ok n =>
      if backupDue backupEveryN n then
        match c.backup with
        | .error _ => ([n], .errBackup)
        | .ok _ =>
          (n :: (l2_verify_and_apply_model backupEveryN rest).1,
            (l2_verify_and_apply_model backupEveryN rest).2)
      else
        (n :: (l2_verify_and_apply_model backupEveryN rest).1,
          (l2_verify_and_apply_model backupEveryN rest).2)

/-- Counterexample to C4 as stated: with backups due every block, a backup
failure right after importing block 0 makes the commit task return an
error (`.errBackup`), instead of merely logging it — the claim's "the
commit task does not return an error" fails. -/
theorem backup_failure_cex :
    l2_verify_and_apply_model (some 1) [⟨.ok 0, .error ()⟩] = ([0], .errBackup) ∧
    (l2_verify_and_apply_model (some 1) [⟨.ok 0, .error ()⟩]).2 ≠ .ok := by
  exact ⟨rfl, by decide⟩

/-- C4 (amended).  A backup failure does not undo the commit, but it does
fail the task: when block `n`'s `verify_apply` succeeds, backup is due and
the backup fails, block `n` is in the imported list (it was committed
before the backup ran) while the task returns the backup error and
processes no further blocks. -/
theorem backup_failure_block_still_committed (k n : Nat) (rest : List CommitInput)
    (hdue : n % k = 0) :
    l2_verify_and_apply_model (some k) (⟨.ok n, .error ()⟩ :: rest)
      = ([n], .errBackup) := by
  have hdueb : backupDue (some k) n = true := by
    rw [backupDue]
    simpa using hdue
  have step : l2_verify_and_apply_model (some k) (⟨.ok n, .error ()⟩ :: rest)
      = (if backupDue (some k) n then ([n], .errBackup)
         else (n :: (l2_verify_and_apply_model (some k) rest).1,
           (l2_verify_and_apply_model (some k) rest).2)) := rfl
  rw [step, if_pos hdueb]

/-- Witness for the amended C4. -/
theorem backup_failure_block_still_committed_witness :
    l2_verify_and_apply_model (some 2) (⟨.ok 4, .error ()⟩ :: [⟨.ok 5, .ok ()⟩])
      = ([4], .errBackup) :=
  backup_failure_block_still_committed 2 4 [⟨.ok 5, .ok ()⟩] (by decide)

/-! ## The conversion stage (`l2_block_conversion_task`)

The task builds `stream::unfold` over the input channel, turning each
received raw block into a `pre_validate` future, and pipes it through
`futures::StreamExt::buffered(10)`, which drives at most 10 of those
futures concurrently and yields their outputs in submission order; the
`while let` loop then forwards each output to the bounded output channel
in the order yielded.  `pre_validate` is deterministic, so only the
completion interleaving varies; it is modelled as a scheduler choosing,
at each step, to admit the next input into the window (possible only while
fewer than `K` conversions are in flight), to complete any in-flight
conversion, or to emit the window's head once it has completed (`buffered`
yields outputs head-of-line). -/

/-- State of the conversion stage: how many inputs were admitted, the
completion flags of the in-flight window (in submission order), and the
outputs already emitted downstream. -/
structure BufState (β : Type) where
  started : Nat
  window : List Bool
  emitted : List β
  deriving Repr

/-- A scheduler decision. -/
inductive BufAction where
  | start
  | finish (j : Nat)
  | emit
  deriving DecidableEq, Repr

/-- One scheduler step; decisions whose guard does not hold leave the
state unchanged. -/
def bufStep {α β : Type} (inputs : List α) (f : α → β) (K : Nat)
    (s : BufState β) : BufAction → BufState β
  | .start =>
    if s.started < inputs.length ∧ s.window.length < K then
      { s with started := s.started + 1, window := s.window ++ [false] }
    else s
  | .finish j => { s with window := s.window.set j true }
  | .emit =>
    match s.window, inputs[s.emitted.length]? with
    | true :: rest, some a =>
      { started := s.started, window := rest, emitted := s.emitted ++ [f a] }
    | _, _ => s

/-- Run the conversion stage under a schedule of decisions. -/
def bufRun {α β : Type} (inputs : List α) (f : α → β) (K : Nat)
    (acts : List BufAction) : BufState β :=
  acts.foldl (bufStep inputs f K) ⟨0, [], []⟩

/-- The stage invariant: admissions account for emissions plus the window,
no more inputs are admitted than exist, the window holds at most `K`
in-flight conversions, and the emitted outputs are exactly the converted
first inputs, in order. -/
def bufInv {α β : Type} (inputs : List α) (f : α → β) (K : Nat)
    (s : BufState β) : Prop :=
  s.started = s.emitted.length + s.window.length ∧
  s.started ≤ inputs.length ∧
  s.window.length ≤ K ∧
  s.emitted = (inputs.map f).take s.emitted.length

theorem bufStep_inv {α β : Type} (inputs : List α) (f : α → β) (K : Nat)
    (s : BufState β) (a : BufAction) (h : bufInv inputs f K s) :
    bufInv inputs f K (bufStep inputs f K s a) := by
  obtain ⟨h1, h2, h3, h4⟩ := h
  cases a with
  | start =>
    rw [bufStep]
    split_ifs with hg
    · refine ⟨?_, ?_, ?_, h4⟩
      · show s.started + 1 = s.emitted.length + (s.window ++ [false]).length
        simp only [List.length_append, List.length_singleton]
        omega
      · show s.started + 1 ≤ inputs.length
        omega
      · show (s.window ++ [false]).length ≤ K
        simp only [List.length_append, List.length_singleton]
        omega
    · exact ⟨h1, h2, h3, h4⟩
  | finish j =>
    refine ⟨?_, h2, ?_, h4⟩
    · show s.started = s.emitted.length + (s.window.set j true).length
      rw [List.length_set]
      exact h1
    · show (s.window.set j true).length ≤ K
      rw [List.length_set]
      exact h3
  | emit =>
    rw [bufStep]
    cases hw : s.window with
    | nil => exact ⟨h1, h2, h3, h4⟩
    | cons bflag rest =>
      cases bflag with
      | false => exact ⟨h1, h2, h3, h4⟩
      | true =>
        cases hg : inputs[s.emitted.length]? with
        | none => exact ⟨h1, h2, h3, h4⟩
        | some a =>
          rw [hw] at h1 h3
          simp only [List.length_cons] at h1 h3
          refine ⟨?_, h2, ?_, ?_⟩
          · show s.started = (s.emitted ++ [f a]).length + rest.length
            simp only [List.length_append, List.length_singleton]
            omega
          · show rest.length ≤ K
            omega
          · show s.emitted ++ [f a]
              = (inputs.map f).take (s.emitted ++ [f a]).length
            simp only [List.length_append, List.length_singleton]
            rw [List.take_succ]
            have hmap : (inputs.map f)[s.emitted.length]? = some (f a) := by
              rw [List.getElem?_map, hg]
              rfl
            rw [hmap, ← h4]
            rfl

theorem bufRun_inv {α β : Type} (inputs : List α) (f : α → β) (K : Nat) :
    ∀ (acts : List BufAction) (s : BufState β), bufInv inputs f K s →
      bufInv inputs f K (acts.foldl (bufStep inputs f K) s) := by
  intro acts
  induction acts with
  | nil => intro s h; exact h
  | cons a acts ih =>
    intro s h
    exact ih _ (bufStep_inv inputs f K s a h)

/-- C7.  The conversion stage preserves input order under bounded
concurrency: under every schedule (every interleaving of conversion
completions), at most `K = 10` conversions are ever in flight, the emitted
outputs are always a prefix of `inputs.map f` (order preservation), and a
schedule that drains the stage emits exactly `inputs.map f` — the result
of sequentially pre-validating each block in input order. -/
theorem conversion_order_preserved {α β : Type} (inputs : List α) (f : α → β)
    (acts : List BufAction) :
    ((bufRun inputs f 10 acts).window.length ≤ 10) ∧
    ((bufRun inputs f 10 acts).emitted
        = (inputs.map f).take (bufRun inputs f 10 acts).emitted.length) ∧
    ((bufRun inputs f 10 acts).started = inputs.length →
      (bufRun inputs f 10 acts).window = [] →
      (bufRun inputs f 10 acts).emitted = inputs.map f) := by
  have hinv : bufInv inputs f 10 (bufRun inputs f 10 acts) := by
    rw [bufRun]
    exact bufRun_inv inputs f 10 acts ⟨0, [], []⟩
      ⟨rfl, by simp, by simp, rfl⟩
  obtain ⟨h1, h2, h3, h4⟩ := hinv
  refine ⟨h3, h4, ?_⟩
  intro hstart hwin
  rw [hstart, hwin] at h1
  simp only [List.length_nil, Nat.add_zero] at h1
  rw [h4, ← h1]
  have : (inputs.map f).length = inputs.length := List.length_map inputs f
  rw [show inputs.length = (inputs.map f).length from this.symm, List.take_length]

/-- Witness for C7: three blocks, completions out of order (second
finishes before first), outputs still in input order. -/
theorem conversion_order_preserved_witness :
    (bufRun [10, 20, 30] (fun x => x + 1) 10
        [.start, .start, .finish 1, .finish 0, .emit, .emit, .start, .finish 0,
          .emit]).emitted = [11, 21, 31] := by
  have h := (conversion_order_preserved [10, 20, 30] (fun x => x + 1)
    [.start, .start, .finish 1, .finish 0, .emit, .emit, .start, .finish 0, .emit]).2.2
  rw [h rfl rfl]
  rfl

/-! ## The sync entry point (`crates/client/sync/src/lib.rs`, `sync`) -/

/-- The resume-point computation at the top of `sync`: the first block to
fetch and the `ignore_block_order` flag, as a function of the optional
explicit `starting_block` argument and the store's latest committed block
number (`backend.get_block_n(Latest)`). -/
def sync_resume_point (starting_block : Option Nat) (latest_block_n : Option Nat) :
    Nat × Bool :=
  match starting_block with
  | some starting_block => (starting_block, true)
  | none => ((latest_block_n.map (fun block_id => block_id + 1)).getD 0, false)

/-- C9.  Sync resume point: without an explicit starting block, syncing
starts at the last committed block number plus one, or at genesis (block
0) when nothing was committed; `ignore_block_order` is enabled exactly
when an explicit starting block is supplied. -/
theorem sync_resume_point_correct (latest : Option Nat) (s : Nat) :
    (sync_resume_point (some s) latest = (s, true)) ∧
    (sync_resume_point none latest
        = ((match latest with | some n => n + 1 | none => 0), false)) ∧
    (∀ sb : Option Nat, (sync_resume_point sb latest).2 = sb.isSome) := by
  refine ⟨rfl, ?_, ?_⟩
  · cases latest <;> rfl
  · intro sb
    cases sb <;> rfl
